import Mathlib

/-!
Verification of the configuration validator `scripts/validate.py` of the
claude-dotfiles repository.  Text is modelled as `List Char`; every Python
string operation used by the validator is embedded as an executable Lean
function, and the validators, file discovery and the orchestration layer are
embedded over an explicit filesystem model.
-/

namespace Validate

/-- Text, modelled as a list of characters (Python `str`). -/
abbrev Str := List Char

/-- Coerce a Lean string literal to the `Str` model. -/
def s (x : String) : Str := x.data

/-- Python `str` whitespace (ASCII subset): the characters stripped by
`str.strip()` and matched by the regex class `\s`. -/
def pyIsSpace (c : Char) : Bool :=
  c = ' ' || c = '\t' || c = '\n' || c = '\r' || c = '\x0b' || c = '\x0c'

/-- `a.startswith(b)` on character lists. -/
def leadsWith : Str → Str → Bool
  | [], _ => true
  | _ :: _, [] => false
  | p :: ps, c :: cs => p = c && leadsWith ps cs

/-- `a.endswith(b)`. -/
def trailsWith (suf l : Str) : Bool := leadsWith suf.reverse l.reverse

/-- Python `sub in a` substring test. -/
def containsSub : Str → Str → Bool
  | l, sub =>
    if leadsWith sub l then true
    else match l with
      | [] => false
      | _ :: t => containsSub t sub

/-- Left part of Python `str.strip()`: drop leading whitespace. -/
def stripL (l : Str) : Str := l.dropWhile pyIsSpace

/-- Right part of Python `str.strip()`: drop trailing whitespace. -/
def stripR (l : Str) : Str := (l.reverse.dropWhile pyIsSpace).reverse

/-- Python `str.strip()`. -/
def strip (l : Str) : Str := stripR (stripL l)

/-- Python `content.split('\n')`. -/
def splitNL : Str → List Str
  | [] => [[]]
  | c :: t =>
    if c = '\n' then [] :: splitNL t
    else
      match splitNL t with
      | [] => [[c]]
      | h :: r => (c :: h) :: r

/-- Python `'\n'.join(lines)`. -/
def joinNL : List Str → Str
  | [] => []
  | [l] => l
  | l :: r => l ++ '\n' :: joinNL r

/-- Python `line.partition(':')`: the text before the first colon and the text
after it (the latter empty when there is no colon, as in Python). -/
def partColon : Str → Str × Str
  | [] => ([], [])
  | c :: t =>
    if c = ':' then ([], t)
    else
      let p := partColon t
      (c :: p.1, p.2)

/-- Python `content.find(sub)` restricted to successful search: index of the
first occurrence of `sub`, if any. -/
def findSub (sub : Str) : Str → Option Nat
  | [] => if sub.isEmpty then some 0 else none
  | c :: t =>
    if leadsWith sub (c :: t) then some 0
    else (findSub sub (t)).map (· + 1)

/-- Lexicographic comparison of path strings (for the specification's
"sort by path" ordering). -/
def strLe : Str → Str → Bool
  | [], _ => true
  | _ :: _, [] => false
  | a :: as', b :: bs =>
    if a = b then strLe as' bs else a.toNat ≤ b.toNat

/-! ## Frontmatter extraction (`validate_yaml_frontmatter`, lines 289-303)

The closing delimiter is located with `re.search(r'\n---\s*\n', content[3:])`.
A match at a position requires a newline, three dashes, then a run of
whitespace reaching some newline. -/

/-- Does the regex `\n---\s*\n` match at the head of `l`? -/
def fmMatchAt : Str → Bool
  | '\n' :: '-' :: '-' :: '-' :: rest => fmReachNL rest
  | _ => false
where
  /-- Is a newline reachable from here through `\s*`? -/
  fmReachNL : Str → Bool
  | [] => false
  | c :: t => if c = '\n' then true else if pyIsSpace c then fmReachNL t else false

/-- `re.search` for `\n---\s*\n`: index of the leftmost match, if any. -/
def fmFind : Str → Option Nat
  | [] => none
  | c :: t =>
    if fmMatchAt (c :: t) then some 0
    else (fmFind t).map (· + 1)

/-- Index just past the greedy match of `\n---\s*\n` starting at the head:
one past the last newline inside the whitespace run after the dashes. -/
def fmMatchEnd : Str → Option Nat
  | '\n' :: '-' :: '-' :: '-' :: rest => (fmLastNL rest).map (fun j => 4 + j + 1)
  | _ => none
where
  /-- Index of the last `'\n'` reachable through whitespace. -/
  fmLastNL : Str → Option Nat
  | [] => none
  | c :: t =>
    if pyIsSpace c then
      match fmLastNL t with
      | some j => some (j + 1)
      | none => if c = '\n' then some 0 else none
    else none

/-! ## The minimal YAML mapper (`validate_yaml_frontmatter`, lines 308-364) -/

/-- The ordered mapping being built: Python `dict` of parsed fields. -/
abbrev Mapping := List (Str × Str)

/-- `data[key] = value` on an insertion-ordered dict: update in place when the
key is present, append otherwise. -/
def dictInsert (d : Mapping) (k v : Str) : Mapping :=
  if d.any (fun p => p.1 = k) then
    d.map (fun p => if p.1 = k then (k, v) else p)
  else d ++ [(k, v)]

/-- `key in data`. -/
def dictLookup (d : Mapping) (k : Str) : Option Str :=
  (d.find? (fun p => p.1 = k)).map (·.2)

/-- The parser state of the line loop. -/
structure YState where
  data : Mapping
  currentKey : Option Str
  currentValue : List Str
  inMultiline : Bool
deriving Repr, DecidableEq

/-- Python truthiness of `current_key` (`None` and `''` are falsy). -/
def keyTruthy : Option Str → Bool
  | none => false
  | some k => !k.isEmpty

/-- Flush the accumulated multi-line value (`if current_key and in_multiline`). -/
def yFlush (st : YState) : YState :=
  if keyTruthy st.currentKey && st.inMultiline then
    match st.currentKey with
    | some k => { st with data := dictInsert st.data k (strip (joinNL st.currentValue)) }
    | none => st
  else st

/-- The `key: value` part of the loop body (lines 330-350), applied after the
flush of a pending multi-line value. -/
def keyLineStep (st1 : YState) (line : Str) : YState :=
  let kv := partColon line
  let key := strip kv.1
  let value := strip kv.2
  if value = s "|" || value = s ">" then
    { st1 with currentKey := some key, currentValue := [], inMultiline := true }
  else if !value.isEmpty then
    { st1 with data := dictInsert st1.data key value, currentKey := none,
               inMultiline := false }
  else
    { st1 with data := dictInsert st1.data key [], inMultiline := false }

/-- A line that opens a new `key: value` pair: unindented and containing a
colon (line 325). -/
def isKeyLine (line : Str) : Bool :=
  !leadsWith (s " ") line && line.contains ':'

/-- One iteration of the `for line in frontmatter_text.split('\n')` loop. -/
def yamlStep (st : YState) (line : Str) : YState :=
  if (strip line).isEmpty then
    if st.inMultiline then { st with currentValue := st.currentValue ++ [[]] }
    else st
  else if isKeyLine line then
    keyLineStep (yFlush st) line
  else if st.inMultiline && keyTruthy st.currentKey then
    { st with currentValue := st.currentValue ++ [strip line] }
  else st

/-- Parse a frontmatter block (the text between the delimiters) into a mapping:
the line loop followed by the final flush. -/
def yamlParse (fmText : Str) : Mapping :=
  (yFlush ((splitNL fmText).foldl yamlStep ⟨[], none, [], false⟩)).data

/-- `validate_yaml_frontmatter`: delimiter checks, then the mapper.  Returns
the parsed mapping or the error message the function reports. -/
def validateYamlFrontmatter (content : Str) : Except Str Mapping :=
  if !leadsWith (s "---") content then
    .error (s "Missing YAML frontmatter (file should start with ---)")
  else
    match fmFind (content.drop 3) with
    | none => .error (s "Missing closing --- for frontmatter")
    | some i => .ok (yamlParse ((content.drop 3).take i))

/-! ## JSON validation (`validate_json`, lines 206-242) -/

/-- The per-line step of the preserved-but-inert cleaning loop: both branches
append the original line. -/
def cleanLine (line : Str) : Str :=
  if leadsWith (s "\"//") (strip line) then line else line

/-- The `cleaned_content` the checker feeds to `json.loads`. -/
def cleanedContent (content : Str) : Str :=
  joinNL ((splitNL content).map cleanLine)

/-- `validate_json`.  `jsonOk` models `json.loads` succeeding (the parser is
the Python standard library, external to this program); the file argument is
the outcome of reading.  Returns the `(is_valid, error_message)` pair, with
the dynamic detail of the messages abstracted away. -/
def validateJson (jsonOk : Str → Bool) (file : Except Str Str) : Bool × Option Str :=
  match file with
  | .error e => (false, some (s "Error reading file: " ++ e))
  | .ok content =>
    if jsonOk (cleanedContent content) then (true, none)
    else (false, some (s "JSON syntax error"))

/-! ## Schema validators (lines 376-611) -/

/-- The read-failure finding `f"Cannot read file: {e}"`. -/
def cannotRead (e : Str) : Str := s "Cannot read file: " ++ e

/-- The core of `re.match(r'^[a-z][a-z0-9-]*$', name)`: lowercase letter then
lowercase letters, digits or hyphens, to the end. -/
def namePatCore : Str → Bool
  | [] => false
  | c :: t =>
    ('a' ≤ c && c ≤ 'z') &&
      t.all (fun d => ('a' ≤ d && d ≤ 'z') || ('0' ≤ d && d ≤ '9') || d = '-')

/-- `re.match(r'^[a-z][a-z0-9-]*$', name)`: `$` also matches just before a
trailing newline. -/
def namePattern (n : Str) : Bool :=
  if n.getLast? = some '\n' then namePatCore n.dropLast else namePatCore n

/-- The `name` field checks of `validate_skill_md` (lines 419-434). -/
def skillNameErrs (d : Mapping) : List Str :=
  match dictLookup d (s "name") with
  | none => [s "Missing required field: name"]
  | some name =>
    (if name.length > 64 then
      [s "name exceeds 64 characters: " ++ (toString name.length).data] else []) ++
    (if !namePattern name then
      [s "name must be lowercase with hyphens: " ++ name] else [])

/-- The `description` field checks of `validate_skill_md` (lines 439-446). -/
def skillDescErrs (d : Mapping) : List Str :=
  match dictLookup d (s "description") with
  | none => [s "Missing required field: description"]
  | some desc =>
    if desc.length > 1024 then
      [s "description exceeds 1024 characters: " ++ (toString desc.length).data]
    else []

/-- The body-length check shared by `validate_skill_md` (lines 452-460) and
`validate_agent_md` (lines 565-569): locate the frontmatter end with
`content.find('\n---\n', 3)` and require 100 trimmed characters after it. -/
def bodyErrs (content : Str) (msg : Str) : List Str :=
  match findSub (s "\n---\n") (content.drop 3) with
  | some j => if (strip (content.drop (j + 8))).length < 100 then [msg] else []
  | none => []

/-- `validate_skill_md`. -/
def validateSkillMd (file : Except Str Str) : List Str :=
  match file with
  | .error e => [cannotRead e]
  | .ok content =>
    match validateYamlFrontmatter content with
    | .error err => [err]
    | .ok data =>
      skillNameErrs data ++ skillDescErrs data ++
        bodyErrs content (s "SKILL.md body seems too short (< 100 chars)")

/-- `re.search(r'^#\s+\S', content, re.MULTILINE)` succeeding at the head of
the given suffix: a hash, at least one whitespace character, then any
non-whitespace character. -/
def headMatchAt : Str → Bool
  | '#' :: rest => headWs rest
  | _ => false
where
  /-- At least one `\s`, then eventually a `\S`. -/
  headWs : Str → Bool
  | [] => false
  | c :: t => if pyIsSpace c then headAfterWs t else false
  /-- Skip further `\s` until a `\S` is found. -/
  headAfterWs : Str → Bool
  | [] => false
  | c :: t => if pyIsSpace c then headAfterWs t else true

/-- The multiline search: the pattern may match at the start of the content or
just after any newline. -/
def hasHeading (content : Str) : Bool :=
  headMatchAt content || go content
where
  go : Str → Bool
  | [] => false
  | c :: t => (c = '\n' && headMatchAt t) || go t

/-- `validate_rule_md` (lines 473-509). -/
def validateRuleMd (name : Str) (file : Except Str Str) : List Str :=
  match file with
  | .error e => [cannotRead e]
  | .ok content =>
    if name = s "README.md" then []
    else
      (if !hasHeading content then
        [s "Rule file should have a top-level heading (# Title)"] else []) ++
      (if (strip content).length < 200 then
        [s "Rule file seems too short (< 200 chars)"] else [])

/-- `validate_agent_md` (lines 519-571). -/
def validateAgentMd (name : Str) (file : Except Str Str) : List Str :=
  match file with
  | .error e => [cannotRead e]
  | .ok content =>
    if name = s "README.md" then []
    else if !leadsWith (s "---") content then
      [s "Agent file should have YAML frontmatter (---)"]
    else
      match validateYamlFrontmatter content with
      | .error err => [err]
      | .ok data =>
        (match dictLookup data (s "name") with
         | none => [s "Missing required field: name"]
         | some _ => []) ++
        (match dictLookup data (s "description") with
         | none => [s "Missing required field: description"]
         | some _ => []) ++
        bodyErrs content (s "Agent body seems too short (< 100 chars)")

/-! ## Link integrity checking (`validate_markdown_links`, lines 620-726) -/

/-- A backtick. -/
def btick : Char := Char.ofNat 96

/-- Find the earliest occurrence of three backticks; return the text after it. -/
def findFence : Str → Option Str
  | [] => none
  | c :: t =>
    if leadsWith [btick, btick, btick] (c :: t) then some (t.drop 2)
    else findFence t

/-- `re.sub(r'```[\s\S]*?```', '', content)` with explicit fuel: remove each
leftmost, shortest fenced code block.  Every recursive call shortens the text
by at least one character, so `fuel = length` (see `stripFences`) always
suffices and the zero-fuel case is unreachable. -/
def stripFencesF : Nat → Str → Str
  | 0, l => l
  | fuel + 1, l =>
    if leadsWith [btick, btick, btick] l then
      match findFence (l.drop 3) with
      | some rest => stripFencesF fuel rest
      | none =>
        match l with
        | [] => []
        | c :: t => c :: stripFencesF fuel t
    else
      match l with
      | [] => []
      | c :: t => c :: stripFencesF fuel t

/-- `re.sub(r'```[\s\S]*?```', '', content)`. -/
def stripFences (l : Str) : Str := stripFencesF l.length l

/-- Attempt to match `\[([^\]]+)\]\(([^)]+)\)` at the head of the text:
returns the two capture groups and the remainder after the match. -/
def matchLinkAt : Str → Option ((Str × Str) × Str)
  | [] => none
  | c :: rest =>
    if c = '[' then
      match rest.takeWhile (· ≠ ']'), rest.dropWhile (· ≠ ']') with
      | t0 :: ts, ']' :: '(' :: r2 =>
        match r2.takeWhile (· ≠ ')'), r2.dropWhile (· ≠ ')') with
        | u0 :: us, ')' :: r4 => some (((t0 :: ts), (u0 :: us)), r4)
        | _, _ => none
      | _, _ => none
    else none

/-- `re.findall(r'\[([^\]]+)\]\(([^)]+)\)', content)` with explicit fuel:
scan left to right, collecting non-overlapping matches.  A successful match
consumes at least six characters and a failure advances by one, so
`fuel = length` (see `findLinks`) always suffices and the zero-fuel case is
unreachable. -/
def findLinksF : Nat → Str → List (Str × Str)
  | 0, _ => []
  | fuel + 1, l =>
    match l with
    | [] => []
    | c :: t =>
      match matchLinkAt (c :: t) with
      | some (g, r) => g :: findLinksF fuel r
      | none => findLinksF fuel t

/-- `re.findall(r'\[([^\]]+)\]\(([^)]+)\)', content)`. -/
def findLinks (l : Str) : List (Str × Str) := findLinksF l.length l

/-- `Path(dir) / part` on string paths: an absolute right operand wins, an
empty one is a no-op. -/
def pathJoin (dir part : Str) : Str :=
  if leadsWith (s "/") part then part
  else if part.isEmpty then dir
  else dir ++ s "/" ++ part

/-- The broken-link finding `f"Broken link: [{text}]({link})"`. -/
def brokenMsg (text link : Str) : Str :=
  s "Broken link: [" ++ text ++ s "](" ++ link ++ s ")"

/-- The skip tests and path resolution of the per-link loop body (lines
676-718): `none` when the link is skipped, otherwise the resolved target
path that will be tested for existence.  `fileDir` is `file_path.parent`
and `repoRoot` the repository root. -/
def linkResolve (fileDir repoRoot : Str) (p : Str × Str) : Option Str :=
  let link := p.2
  if leadsWith (s "http://") link || leadsWith (s "https://") link ||
      leadsWith (s "mailto:") link then none
  else if leadsWith (s "#") link then none
  else if link = s "url" || link = s "link" || link = s "badge" then none
  else if leadsWith (s "../../") link then none
  else
    let pathPart := link.takeWhile (· ≠ '#')
    if pathPart.isEmpty then none
    else
      some
        (if leadsWith (s "./") pathPart then pathJoin fileDir (pathPart.drop 2)
         else if leadsWith (s "/") pathPart then pathJoin repoRoot (pathPart.drop 1)
         else pathJoin fileDir pathPart)

/-- The per-link body of the loop (lines 676-724): `none` when the link is
skipped or its resolved target exists, otherwise the broken-link finding.
`ex` models `Path.exists` on the resolved string path. -/
def checkLink (fileDir repoRoot : Str) (ex : Str → Bool) (p : Str × Str) :
    Option Str :=
  match linkResolve fileDir repoRoot p with
  | none => none
  | some target => if ex target then none else some (brokenMsg p.1 p.2)

/-- `validate_markdown_links`: on a read failure the function returns the empty
list; TEMPLATE/SPEC files are exempt; otherwise fenced code blocks are removed,
links extracted and each checked. -/
def validateMarkdownLinks (file : Except Str Str) (fileName fileDir repoRoot : Str)
    (ex : Str → Bool) : List Str :=
  match file with
  | .error _ => []
  | .ok content =>
    if containsSub fileName (s "TEMPLATE") || containsSub fileName (s "SPEC") then []
    else
      (findLinks (stripFences content)).filterMap (checkLink fileDir repoRoot ex)

/-- `validate_command_md` (lines 581-611). -/
def validateCommandMd (file : Except Str Str) : List Str :=
  match file with
  | .error e => [cannotRead e]
  | .ok content =>
    (if !hasHeading content then
      [s "Command file should have a top-level heading"] else []) ++
    (if (strip content).length < 100 then
      [s "Command file seems too short (< 100 chars)"] else [])

/-! ## File discovery and orchestration (lines 733-978)

The filesystem is modelled as a root path plus the files below it, listed in
the order `Path.rglob` enumerates them (that order is produced by the OS
directory walk; the code never sorts it), together with the directories that
exist.  File contents are read outcomes (`Except`): an error is an unreadable
file. -/

/-- One file of the tree: its path relative to the root (with `/` separators)
and the outcome of reading it. -/
structure FileEntry where
  relPath : Str
  content : Except Str Str

/-- A directory tree rooted at `root`.  `entries` is in enumeration order. -/
structure FS where
  root : Str
  entries : List FileEntry
  dirs : List Str

/-- The final path component (`Path.name`). -/
def baseName (p : Str) : Str := ((p.reverse.takeWhile (· ≠ '/')).reverse)

/-- The parent path as a string (`Path.parent`): everything before the final
slash. -/
def parentDir (p : Str) : Str :=
  if p.contains '/' then (p.reverse.dropWhile (· ≠ '/')).reverse.dropLast
  else s "."

/-- `str(path)` of an entry: the root joined with the relative path. -/
def fullPath (fs : FS) (e : FileEntry) : Str := fs.root ++ s "/" ++ e.relPath

/-- The glob patterns the validator passes to `find_files`. -/
inductive GlobPat where
  | jsonExt
  | skillName
  | mdExt
deriving DecidableEq

/-- Whether a file name matches a pattern (`rglob` matches the final
component against a slash-free pattern). -/
def matchesPat : GlobPat → Str → Bool
  | .jsonExt, name => trailsWith (s ".json") name
  | .skillName, name => name = s "SKILL.md"
  | .mdExt, name => trailsWith (s ".md") name

/-- `find_files(root, pattern)` = `list(root.rglob(pattern))`: the matching
files in enumeration order — no sorting, no deduplication step. -/
def findFiles (fs : FS) (pat : GlobPat) : List FileEntry :=
  fs.entries.filter (fun e => matchesPat pat (baseName e.relPath))

/-- `find_files(path / sub, pattern)`: matching files below the subdirectory. -/
def findFilesUnder (fs : FS) (sub : Str) (pat : GlobPat) : List FileEntry :=
  fs.entries.filter (fun e =>
    leadsWith (sub ++ s "/") e.relPath && matchesPat pat (baseName e.relPath))

/-- The skip test of the JSON and link loops:
`'node_modules' in str(f) or '.git' in str(f)`. -/
def isExcluded (full : Str) : Bool :=
  containsSub full (s "node_modules") || containsSub full (s ".git")

/-- The JSON loop (lines 786-802): files checked and errors contributed. -/
def jsonPass (jsonOk : Str → Bool) (root : Str) (es : List FileEntry) : Nat × Nat :=
  es.foldl
    (fun acc e =>
      if matchesPat .jsonExt (baseName e.relPath) then
        if isExcluded (root ++ s "/" ++ e.relPath) then acc
        else (acc.1 + 1, acc.2 + (if (validateJson jsonOk e.content).1 then 0 else 1))
      else acc)
    (0, 0)

/-- The SKILL.md loop (lines 807-819): no exclusion test. -/
def skillPass (es : List FileEntry) : Nat × Nat :=
  es.foldl
    (fun acc e =>
      if matchesPat .skillName (baseName e.relPath) then
        (acc.1 + 1, acc.2 + (validateSkillMd e.content).length)
      else acc)
    (0, 0)

/-- The rules loop (lines 824-839): only when `rules/` is a directory;
`README.md` is skipped before counting. -/
def rulePass (fs : FS) : Nat × Nat :=
  if fs.dirs.contains (s "rules") then
    (findFilesUnder fs (s "rules") .mdExt).foldl
      (fun acc e =>
        if baseName e.relPath = s "README.md" then acc
        else (acc.1 + 1, acc.2 + (validateRuleMd (baseName e.relPath) e.content).length))
      (0, 0)
  else (0, 0)

/-- The agents loop (lines 844-859). -/
def agentPass (fs : FS) : Nat × Nat :=
  if fs.dirs.contains (s "agents") then
    (findFilesUnder fs (s "agents") .mdExt).foldl
      (fun acc e =>
        if baseName e.relPath = s "README.md" then acc
        else (acc.1 + 1, acc.2 + (validateAgentMd (baseName e.relPath) e.content).length))
      (0, 0)
  else (0, 0)

/-- The commands loop (lines 864-877): no `README.md` skip here. -/
def commandPass (fs : FS) : Nat × Nat :=
  if fs.dirs.contains (s "commands") then
    (findFilesUnder fs (s "commands") .mdExt).foldl
      (fun acc e => (acc.1 + 1, acc.2 + (validateCommandMd e.content).length))
      (0, 0)
  else (0, 0)

/-- `Path.exists` over the model: the root, a directory, or a file. -/
def pathExists (fs : FS) (p : Str) : Bool :=
  p = fs.root || fs.dirs.any (fun d => fs.root ++ s "/" ++ d = p) ||
    fs.entries.any (fun e => fullPath fs e = p)

/-- The markdown-link loop (lines 882-894): every finding increments the
warning counter; no file counting, no error counting. -/
def linkPass (root : Str) (ex : Str → Bool) (es : List FileEntry) : Nat :=
  es.foldl
    (fun w e =>
      if matchesPat .mdExt (baseName e.relPath) then
        if isExcluded (root ++ s "/" ++ e.relPath) then w
        else
          w + (validateMarkdownLinks e.content (baseName e.relPath)
                (parentDir (root ++ s "/" ++ e.relPath)) root ex).length
      else w)
    0

/-- The `(files_checked, errors, warnings)` aggregate of one run. -/
structure Agg where
  files : Nat
  errors : Nat
  warnings : Nat
deriving DecidableEq, Repr

/-- `validate_directory`: the five validation loops followed by the link
loop, accumulated into the aggregate report. -/
def validateDirectory (jsonOk : Str → Bool) (fs : FS) : Agg :=
  let j := jsonPass jsonOk fs.root fs.entries
  let sk := skillPass fs.entries
  let ru := rulePass fs
  let ag := agentPass fs
  let co := commandPass fs
  let w := linkPass fs.root (pathExists fs) fs.entries
  ⟨j.1 + sk.1 + ru.1 + ag.1 + co.1,
   j.2 + sk.2 + ru.2 + ag.2 + co.2, w⟩

/-- `Path.suffix` of a file name: from the last dot, when that dot is neither
the first nor the last character. -/
def pathSuffix (name : Str) : Str :=
  match findSub (s ".") name.reverse with
  | none => []
  | some j =>
    let i := name.length - 1 - j
    if 0 < i && i < name.length - 1 then name.drop i else []

/-- `validate_file` (lines 905-978): infer the type from the name and run one
validator.  `fileDir`, `repoRoot` and `ex` stand for the link-checking
environment (the repo root found by the upward walk of lines 953-962). -/
def validateFile (jsonOk : Str → Bool) (name : Str) (content : Except Str Str)
    (fileDir repoRoot : Str) (ex : Str → Bool) : Nat × Nat :=
  if pathSuffix name = s ".json" then
    ((if (validateJson jsonOk content).1 then 0 else 1), 0)
  else if name = s "SKILL.md" then
    ((validateSkillMd content).length, 0)
  else if pathSuffix name = s ".md" then
    (0, (validateMarkdownLinks content name fileDir repoRoot ex).length)
  else (0, 0)

/-- A validation run on an existing target: a single file or a directory. -/
inductive RunTarget where
  | file (jsonOk : Str → Bool) (name : Str) (content : Except Str Str)
      (fileDir repoRoot : Str) (ex : Str → Bool)
  | dir (jsonOk : Str → Bool) (fs : FS)

/-- The aggregate the `main` summary prints (lines 1022-1028): a single file
counts as one file checked. -/
def runCounts : RunTarget → Agg
  | .file jsonOk name content fileDir repoRoot ex =>
    let r := validateFile jsonOk name content fileDir repoRoot ex
    ⟨1, r.1, r.2⟩
  | .dir jsonOk fs => validateDirectory jsonOk fs

/-- The process exit status of `main` (lines 1041-1046): 1 when `errors > 0`,
otherwise 0. -/
def mainExitCode (t : RunTarget) : Nat :=
  if (runCounts t).errors > 0 then 1 else 0

/-! ## Properties stated by the specification

These definitions formalise wording of the specification itself, for claims
that compare the code against it. -/

/-- A single-line scalar `key: value` line of the supported frontmatter
subset: unindented, containing a colon, and not introducing a block scalar. -/
def isScalarLine (line : Str) : Bool :=
  isKeyLine line &&
    strip (partColon line).2 ≠ s "|" && strip (partColon line).2 ≠ s ">"

/-- The serialized `key: value` line of one mapping entry. -/
def lineOf (p : Str × Str) : Str := p.1 ++ s ": " ++ p.2

/-- Re-serialization of a mapping into `key: value` lines, as the round-trip
property of the specification describes. -/
def serializeMapping (m : Mapping) : Str :=
  joinNL (m.map lineOf)

/-- The specification's required output order for file discovery: consecutive
paths in nondecreasing lexicographic order. -/
def pathsSorted : List Str → Bool
  | [] => true
  | [_] => true
  | a :: b :: t => strLe a b && pathsSorted (b :: t)

/-- The body as the specification defines it: the text of the document after
the matched closing frontmatter delimiter (the delimiter that the extractor
itself matches, trailing whitespace included). -/
def fmSpecBody (content : Str) : Str :=
  match fmFind (content.drop 3) with
  | none => []
  | some i =>
    match fmMatchEnd ((content.drop 3).drop i) with
    | none => []
    | some len => content.drop (3 + i + len)

/-! ## Concrete documents and trees used to instantiate the theorems -/

/-- A skill document whose closing delimiter carries a trailing space: the
extractor's regex accepts it, but `content.find('\n---\n', 3)` does not. -/
def laxDelimSkill : Str := s "---\nname: my-skill\ndescription: ok\n--- \nhi"

/-- The same skill document with an exact closing delimiter. -/
def exactDelimSkill : Str := s "---\nname: my-skill\ndescription: ok\n---\nhi"

/-- A tree whose only file is a `SKILL.md` below `node_modules`. -/
def nodeModulesTree : FS :=
  ⟨s "/repo", [⟨s "node_modules/pkg/SKILL.md", .ok (s "not a skill file")⟩], []⟩

/-- A tree whose enumeration order is not sorted by path. -/
def unsortedTree : FS :=
  ⟨s "/repo", [⟨s "b.json", .ok []⟩, ⟨s "a.json", .ok []⟩], []⟩

/-! ## Lemmas about splitting and joining lines -/

theorem splitNL_ne_nil (l : Str) : splitNL l ≠ [] := by
  cases l with
  | nil => simp [splitNL]
  | cons c t =>
    simp only [splitNL]
    split
    · simp
    · split <;> simp

theorem joinNL_cons (x : Str) (ls : List Str) (h : ls ≠ []) :
    joinNL (x :: ls) = x ++ '\n' :: joinNL ls := by
  cases ls with
  | nil => exact absurd rfl h
  | cons y r => rfl

theorem join_split (l : Str) : joinNL (splitNL l) = l := by
  induction l with
  | nil => rfl
  | cons c t ih =>
    by_cases hc : c = '\n'
    · subst hc
      have h1 : splitNL ('\n' :: t) = [] :: splitNL t := by simp [splitNL]
      rw [h1, joinNL_cons _ _ (splitNL_ne_nil t), ih]
      rfl
    · obtain ⟨h, r, hr⟩ : ∃ h r, splitNL t = h :: r := by
        cases hsp : splitNL t with
        | nil => exact absurd hsp (splitNL_ne_nil t)
        | cons h r => exact ⟨h, r, rfl⟩
      have h1 : splitNL (c :: t) = (c :: h) :: r := by simp [splitNL, hc, hr]
      have h2 : joinNL ((c :: h) :: r) = c :: joinNL (h :: r) := by
        cases r <;> rfl
      rw [h1, h2, ← hr, ih]

theorem cleanLine_id (l : Str) : cleanLine l = l := by
  simp [cleanLine]

theorem cleanedContent_id (content : Str) : cleanedContent content = content := by
  have hcl : cleanLine = id := funext cleanLine_id
  rw [cleanedContent, hcl, List.map_id, join_split]

/-- An entry of a mapping obtained by parsing single-line scalars: key and
value are strip-normal, carry no newline, the key carries no colon, and the
value is not a block-scalar indicator.  (A proof device for the round-trip
theorem.) -/
def CleanEntry (p : Str × Str) : Prop :=
  strip p.1 = p.1 ∧ ':' ∉ p.1 ∧ '\n' ∉ p.1 ∧
    strip p.2 = p.2 ∧ '\n' ∉ p.2 ∧ p.2 ≠ s "|" ∧ p.2 ≠ s ">"

/-! ## Lemmas about stripping -/

theorem dropWhile_head_not {p : Char → Bool} :
    ∀ (l : Str) {c : Char} {t : Str}, l.dropWhile p = c :: t → p c = false := by
  intro l
  induction l with
  | nil => intro c t h; simp at h
  | cons a l' ih =>
    intro c t h
    by_cases ha : p a
    · rw [List.dropWhile_cons_of_pos ha] at h
      exact ih h
    · rw [List.dropWhile_cons_of_neg ha] at h
      cases h
      simpa using ha

theorem dropWhile_self_of_head {p : Char → Bool} :
    ∀ {l : Str}, (∀ c t, l = c :: t → p c = false) → l.dropWhile p = l := by
  intro l h
  cases l with
  | nil => rfl
  | cons c t => exact List.dropWhile_cons_of_neg (by rw [h c t rfl]; simp)

theorem dropWhile_idem' {p : Char → Bool} (l : Str) :
    (l.dropWhile p).dropWhile p = l.dropWhile p := by
  cases h : l.dropWhile p with
  | nil => rfl
  | cons c t =>
    exact dropWhile_self_of_head (fun c' t' he => by
      cases he
      exact dropWhile_head_not l h)

theorem head?_stripR : ∀ {l c t}, stripR l = c :: t → l.head? = some c := by
  intro l c t h
  have h1 : l.reverse.dropWhile pyIsSpace = (c :: t).reverse := by
    have := congrArg List.reverse h
    simpa [stripR] using this
  have h2 : l.reverse = l.reverse.takeWhile pyIsSpace ++ (t.reverse ++ [c]) := by
    conv_lhs => rw [← List.takeWhile_append_dropWhile (p := pyIsSpace) (l := l.reverse)]
    rw [h1]
    simp
  have h3 : l = c :: (t ++ (l.reverse.takeWhile pyIsSpace).reverse) := by
    have := congrArg List.reverse h2
    simpa using this
  rw [h3]
  rfl

theorem stripR_cons_ne_nil_head {l c t} (h : stripR l = c :: t) :
    ∃ t', l = c :: t' := by
  have := head?_stripR h
  cases l with
  | nil => simp at this
  | cons a l' =>
    simp only [List.head?_cons, Option.some.injEq] at this
    exact ⟨l', by rw [this]⟩

theorem stripL_strip (x : Str) : stripL (strip x) = strip x := by
  unfold strip
  cases h : stripR (stripL x) with
  | nil => rfl
  | cons c t =>
    obtain ⟨t', ht⟩ := stripR_cons_ne_nil_head h
    have hc : pyIsSpace c = false := dropWhile_head_not x ht
    exact dropWhile_self_of_head (fun c' t'' he => by cases he; exact hc)

theorem stripR_idem (l : Str) : stripR (stripR l) = stripR l := by
  unfold stripR
  rw [List.reverse_reverse, dropWhile_idem']

theorem strip_idem (x : Str) : strip (strip x) = strip x := by
  conv_lhs => rw [strip, stripL_strip]
  exact stripR_idem (stripL x)

theorem strip_cons_space (w : Str) : strip (' ' :: w) = strip w := by
  unfold strip stripL
  rw [List.dropWhile_cons_of_pos (by rfl)]

theorem mem_of_mem_stripL {a : Char} {l : Str} (h : a ∈ stripL l) : a ∈ l :=
  (List.dropWhile_sublist _).mem h

theorem mem_of_mem_stripR {a : Char} {l : Str} (h : a ∈ stripR l) : a ∈ l := by
  have h1 : a ∈ l.reverse.dropWhile pyIsSpace := by
    simpa [stripR] using List.mem_reverse.mpr h
  exact List.mem_reverse.mp ((List.dropWhile_sublist _).mem h1)

theorem mem_of_mem_strip {a : Char} {l : Str} (h : a ∈ strip l) : a ∈ l :=
  mem_of_mem_stripL (mem_of_mem_stripR h)

theorem strip_head_not_space {k : Str} (hk : strip k = k) {c : Char} {t : Str}
    (he : k = c :: t) : pyIsSpace c = false := by
  have h1 : stripR (stripL k) = c :: t := by rw [← strip, hk, he]
  obtain ⟨t', ht⟩ := stripR_cons_ne_nil_head h1
  exact dropWhile_head_not k ht

theorem mem_dropWhile_of_mem {p : Char → Bool} {a : Char} :
    ∀ {l : Str}, a ∈ l → p a = false → a ∈ l.dropWhile p := by
  intro l
  induction l with
  | nil => intro h _; exact absurd h (List.not_mem_nil a)
  | cons c t ih =>
    intro hm hp
    by_cases hc : p c
    · rw [List.dropWhile_cons_of_pos hc]
      rcases List.mem_cons.mp hm with h | h
      · subst h; rw [hp] at hc; exact absurd hc (by simp)
      · exact ih h hp
    · rw [List.dropWhile_cons_of_neg hc]
      exact hm

theorem mem_strip_of_mem {a : Char} {l : Str} (hm : a ∈ l)
    (hp : pyIsSpace a = false) : a ∈ strip l := by
  have h1 : a ∈ stripL l := mem_dropWhile_of_mem hm hp
  have h2 : a ∈ (stripL l).reverse := List.mem_reverse.mpr h1
  have h3 : a ∈ (stripL l).reverse.dropWhile pyIsSpace := mem_dropWhile_of_mem h2 hp
  exact List.mem_reverse.mpr h3

theorem strip_not_empty_of_colon {l : Str} (h : l.contains ':' = true) :
    (strip l).isEmpty = false := by
  have hm : ':' ∈ l := List.elem_iff.mp h
  have hs : ':' ∈ strip l := mem_strip_of_mem hm rfl
  cases hsl : strip l with
  | nil => rw [hsl] at hs; exact absurd hs (List.not_mem_nil _)
  | cons c t => rfl

/-! ## Lemmas about `partColon` and line splitting -/

theorem partColon_fst_no_colon : ∀ (l : Str), ':' ∉ (partColon l).1 := by
  intro l
  induction l with
  | nil => simp [partColon]
  | cons c t ih =>
    by_cases hc : c = ':'
    · simp [partColon, hc]
    · simp only [partColon, if_neg hc]
      intro hm
      rcases List.mem_cons.mp hm with h | h
      · exact hc h.symm
      · exact ih h

theorem partColon_append {k : Str} (hk : ':' ∉ k) (r : Str) :
    partColon (k ++ ':' :: r) = (k, r) := by
  induction k with
  | nil => simp [partColon]
  | cons c t ih =>
    have hc : c ≠ ':' := fun h => hk (by rw [h]; exact List.mem_cons_self _ _)
    have ht : ':' ∉ t := fun h => hk (List.mem_cons_of_mem _ h)
    simp [partColon, hc, ih ht]

theorem mem_partColon_fst {a : Char} : ∀ {l : Str}, a ∈ (partColon l).1 → a ∈ l := by
  intro l
  induction l with
  | nil => intro h; simpa [partColon] using h
  | cons c t ih =>
    intro h
    by_cases hc : c = ':'
    · simp [partColon, hc] at h
    · simp only [partColon, if_neg hc] at h
      rcases List.mem_cons.mp h with h1 | h1
      · rw [h1]; exact List.mem_cons_self _ _
      · exact List.mem_cons_of_mem _ (ih h1)

theorem mem_partColon_snd {a : Char} : ∀ {l : Str}, a ∈ (partColon l).2 → a ∈ l := by
  intro l
  induction l with
  | nil => intro h; simpa [partColon] using h
  | cons c t ih =>
    intro h
    by_cases hc : c = ':'
    · simp only [partColon, if_pos hc] at h
      exact List.mem_cons_of_mem _ h
    · simp only [partColon, if_neg hc] at h
      exact List.mem_cons_of_mem _ (ih h)

theorem splitNL_no_nl : ∀ (l : Str), ∀ x ∈ splitNL l, '\n' ∉ x := by
  intro l
  induction l with
  | nil =>
    intro x hx
    simp only [splitNL, List.mem_singleton] at hx
    rw [hx]
    simp
  | cons c t ih =>
    intro x hx
    by_cases hc : c = '\n'
    · simp only [splitNL, if_pos hc] at hx
      rcases List.mem_cons.mp hx with h | h
      · rw [h]; simp
      · exact ih x h
    · simp only [splitNL, if_neg hc] at hx
      cases hsp : splitNL t with
      | nil => exact absurd hsp (splitNL_ne_nil t)
      | cons y r =>
        rw [hsp] at hx
        rcases List.mem_cons.mp hx with h | h
        · rw [h]
          intro hm
          rcases List.mem_cons.mp hm with h1 | h1
          · exact hc h1.symm
          · exact ih y (hsp ▸ List.mem_cons_self y r) h1
        · exact ih x (hsp ▸ List.mem_cons_of_mem y h)

theorem splitNL_single {x : Str} (h : '\n' ∉ x) : splitNL x = [x] := by
  induction x with
  | nil => rfl
  | cons c t ih =>
    have hc : c ≠ '\n' := fun hh => h (by rw [hh]; exact List.mem_cons_self _ _)
    have ht : '\n' ∉ t := fun hh => h (List.mem_cons_of_mem _ hh)
    simp [splitNL, hc, ih ht]

theorem splitNL_append {x : Str} (h : '\n' ∉ x) (rest : Str) :
    splitNL (x ++ '\n' :: rest) = x :: splitNL rest := by
  induction x with
  | nil => simp [splitNL]
  | cons c t ih =>
    have hc : c ≠ '\n' := fun hh => h (by rw [hh]; exact List.mem_cons_self _ _)
    have ht : '\n' ∉ t := fun hh => h (List.mem_cons_of_mem _ hh)
    simp [splitNL, hc, ih ht]

theorem split_join_lines : ∀ (ls : List Str), ls ≠ [] → (∀ x ∈ ls, '\n' ∉ x) →
    splitNL (joinNL ls) = ls := by
  intro ls
  induction ls with
  | nil => intro h _; exact absurd rfl h
  | cons x r ih =>
    intro _ hnl
    cases r with
    | nil => exact splitNL_single (hnl x (List.mem_cons_self _ _))
    | cons y r' =>
      have hx : '\n' ∉ x := hnl x (List.mem_cons_self _ _)
      rw [joinNL_cons x (y :: r') (by simp), splitNL_append hx, ih (by simp)
        (fun z hz => hnl z (List.mem_cons_of_mem _ hz))]

/-! ## Lemmas about the mapping dictionary -/

theorem dictInsert_mem {d : Mapping} {k v : Str} {p : Str × Str}
    (h : p ∈ dictInsert d k v) : p ∈ d ∨ p = (k, v) := by
  unfold dictInsert at h
  split at h
  · obtain ⟨q, hq, hpq⟩ := List.mem_map.mp h
    by_cases hqk : q.1 = k
    · rw [if_pos hqk] at hpq
      exact Or.inr hpq.symm
    · rw [if_neg hqk] at hpq
      exact Or.inl (hpq ▸ hq)
  · rcases List.mem_append.mp h with h1 | h1
    · exact Or.inl h1
    · exact Or.inr (List.mem_singleton.mp h1)

theorem dictInsert_keys {d : Mapping} {k v : Str} :
    (dictInsert d k v).map Prod.fst
      = if d.any (fun p => p.1 = k) then d.map Prod.fst
        else d.map Prod.fst ++ [k] := by
  unfold dictInsert
  split
  next hany =>
    rw [List.map_map]
    apply List.map_congr_left
    intro q _
    by_cases hqk : q.1 = k
    · simp [hqk]
    · simp [hqk]
  next hany => simp

theorem dictInsert_keys_nodup {d : Mapping} {k v : Str}
    (h : (d.map Prod.fst).Nodup) : ((dictInsert d k v).map Prod.fst).Nodup := by
  rw [dictInsert_keys]
  split
  · exact h
  next hany =>
    have hk : k ∉ d.map Prod.fst := by
      intro hm
      obtain ⟨q, hq, hqk⟩ := List.mem_map.mp hm
      exact hany (List.any_eq_true.mpr ⟨q, hq, by simp [hqk]⟩)
    simp [List.nodup_append, h, hk]

theorem dictInsert_ne_nil {d : Mapping} {k v : Str} : dictInsert d k v ≠ [] := by
  unfold dictInsert
  split
  next hany =>
    cases d with
    | nil => simp at hany
    | cons q d' => simp
  · simp

theorem dictInsert_absent {d : Mapping} {k v : Str}
    (h : k ∉ d.map Prod.fst) : dictInsert d k v = d ++ [(k, v)] := by
  unfold dictInsert
  rw [if_neg]
  intro hany
  obtain ⟨q, hq, hqk⟩ := List.any_eq_true.mp hany
  exact h (List.mem_map.mpr ⟨q, hq, by simpa using hqk⟩)

theorem foldl_dictInsert_self :
    ∀ (d pre : Mapping), (((pre ++ d).map Prod.fst).Nodup) →
      d.foldl (fun acc p => dictInsert acc p.1 p.2) pre = pre ++ d := by
  intro d
  induction d with
  | nil => intro pre _; simp
  | cons q d' ih =>
    intro pre hnd
    have hk : q.1 ∉ pre.map Prod.fst := by
      intro hm
      rw [List.map_append] at hnd
      have hq1 : q.1 ∈ ((q :: d').map Prod.fst) := by simp
      exact (List.disjoint_of_nodup_append hnd) hm hq1
    have hstep : dictInsert pre q.1 q.2 = pre ++ [q] := by
      rw [dictInsert_absent hk]
    rw [List.foldl_cons, hstep, ih (pre ++ [q]) (by simpa using hnd)]
    simp

/-! ## Parsing blocks of single-line scalars -/

theorem yFlush_not_multiline {st : YState} (h : st.inMultiline = false) :
    yFlush st = st := by
  unfold yFlush
  rw [h]
  simp

theorem isScalarLine_parts {line : Str} (h : isScalarLine line = true) :
    isKeyLine line = true ∧ strip (partColon line).2 ≠ s "|" ∧
      strip (partColon line).2 ≠ s ">" := by
  simp only [isScalarLine, Bool.and_eq_true, decide_eq_true_eq] at h
  exact ⟨h.1.1, h.1.2, h.2⟩

theorem yamlStep_scalar {st : YState} {line : Str} (hl : isScalarLine line = true)
    (hm : st.inMultiline = false) :
    (yamlStep st line).data
        = dictInsert st.data (strip (partColon line).1) (strip (partColon line).2)
      ∧ (yamlStep st line).inMultiline = false := by
  obtain ⟨hkey, hp, hg⟩ := isScalarLine_parts hl
  have hco : line.contains ':' = true := by
    simp only [isKeyLine, Bool.and_eq_true] at hkey
    exact hkey.2
  have hne : (strip line).isEmpty = false := strip_not_empty_of_colon hco
  have hstep : yamlStep st line = keyLineStep (yFlush st) line := by
    simp [yamlStep, hne, hkey]
  rw [hstep, yFlush_not_multiline hm]
  unfold keyLineStep
  have hor : (strip (partColon line).2 = s "|" || strip (partColon line).2 = s ">")
      = false := by
    simp [hp, hg]
  simp only [hor, Bool.false_eq_true, if_false]
  by_cases hv : (strip (partColon line).2).isEmpty
  · have hveq : strip (partColon line).2 = [] := by
      cases hx : strip (partColon line).2 with
      | nil => rfl
      | cons a b => rw [hx] at hv; exact absurd hv (by simp)
    simp [hv, hveq]
  · have hvf : (strip (partColon line).2).isEmpty = false := by
      simpa using hv
    simp [hvf]

theorem scalar_fold : ∀ (lines : List Str) (st : YState),
    (∀ l ∈ lines, isScalarLine l = true) → st.inMultiline = false →
    ((lines.foldl yamlStep st).data
        = lines.foldl
            (fun d l => dictInsert d (strip (partColon l).1) (strip (partColon l).2))
            st.data)
      ∧ (lines.foldl yamlStep st).inMultiline = false := by
  intro lines
  induction lines with
  | nil => intro st _ hm; exact ⟨rfl, hm⟩
  | cons l r ih =>
    intro st hall hm
    have h1 := yamlStep_scalar (hall l (List.mem_cons_self _ _)) hm
    have ih' := ih (yamlStep st l) (fun x hx => hall x (List.mem_cons_of_mem _ hx)) h1.2
    constructor
    · rw [List.foldl_cons, List.foldl_cons, ih'.1, h1.1]
    · rw [List.foldl_cons]; exact ih'.2

theorem yamlParse_scalar {b : Str} (h : ∀ l ∈ splitNL b, isScalarLine l = true) :
    yamlParse b
      = (splitNL b).foldl
          (fun d l => dictInsert d (strip (partColon l).1) (strip (partColon l).2))
          [] := by
  unfold yamlParse
  have hs := scalar_fold (splitNL b) ⟨[], none, [], false⟩ h rfl
  rw [yFlush_not_multiline hs.2, hs.1]

theorem scalarFold_invariant :
    ∀ (lines : List Str) (d0 : Mapping),
      (∀ l ∈ lines, isScalarLine l = true ∧ '\n' ∉ l) →
      (∀ p ∈ d0, CleanEntry p) → ((d0.map Prod.fst).Nodup) →
      (∀ p ∈ lines.foldl
          (fun d l => dictInsert d (strip (partColon l).1) (strip (partColon l).2)) d0,
        CleanEntry p)
        ∧ ((lines.foldl
            (fun d l => dictInsert d (strip (partColon l).1) (strip (partColon l).2))
            d0).map Prod.fst).Nodup := by
  intro lines
  induction lines with
  | nil => intro d0 _ hc hn; exact ⟨hc, hn⟩
  | cons l r ih =>
    intro d0 hall hc hn
    obtain ⟨hsc, hnl⟩ := hall l (List.mem_cons_self _ _)
    obtain ⟨_, hp, hg⟩ := isScalarLine_parts hsc
    have hclean : CleanEntry (strip (partColon l).1, strip (partColon l).2) := by
      refine ⟨strip_idem _, ?_, ?_, strip_idem _, ?_, hp, hg⟩
      · intro hm
        exact partColon_fst_no_colon l (mem_of_mem_strip hm)
      · intro hm
        exact hnl (mem_partColon_fst (mem_of_mem_strip hm))
      · intro hm
        exact hnl (mem_partColon_snd (mem_of_mem_strip hm))
    have hc' : ∀ p ∈ dictInsert d0 (strip (partColon l).1) (strip (partColon l).2),
        CleanEntry p := by
      intro p hpm
      rcases dictInsert_mem hpm with h1 | h1
      · exact hc p h1
      · rw [h1]; exact hclean
    have hn' := dictInsert_keys_nodup (d := d0)
      (k := strip (partColon l).1) (v := strip (partColon l).2) hn
    exact ih _ (fun x hx => hall x (List.mem_cons_of_mem _ hx)) hc' hn'

theorem scalarFold_ne_nil :
    ∀ (lines : List Str) (d0 : Mapping), d0 ≠ [] →
      lines.foldl
          (fun d l => dictInsert d (strip (partColon l).1) (strip (partColon l).2)) d0
        ≠ [] := by
  intro lines
  induction lines with
  | nil => intro d0 h; exact h
  | cons l r ih =>
    intro d0 _
    rw [List.foldl_cons]
    exact ih _ dictInsert_ne_nil

/-! ## Serialization and reparsing -/

theorem lineOf_shape (p : Str × Str) : lineOf p = p.1 ++ ':' :: ' ' :: p.2 := by
  show p.1 ++ s ": " ++ p.2 = _
  rw [List.append_assoc]
  rfl

theorem lineOf_scalar {p : Str × Str} (h : CleanEntry p) :
    isScalarLine (lineOf p) = true ∧ '\n' ∉ lineOf p ∧
      strip (partColon (lineOf p)).1 = p.1 ∧
      strip (partColon (lineOf p)).2 = p.2 := by
  obtain ⟨hk1, hk2, hk3, hv1, hv2, hv3, hv4⟩ := h
  have hpart : partColon (lineOf p) = (p.1, ' ' :: p.2) := by
    rw [lineOf_shape]
    exact partColon_append hk2 _
  have hkeyv : strip (partColon (lineOf p)).1 = p.1 := by rw [hpart]; exact hk1
  have hvalv : strip (partColon (lineOf p)).2 = p.2 := by
    rw [hpart]
    show strip (' ' :: p.2) = p.2
    rw [strip_cons_space]
    exact hv1
  have hlw : leadsWith (s " ") (lineOf p) = false := by
    rw [lineOf_shape]
    cases hp1 : p.1 with
    | nil => rfl
    | cons c t =>
      have hcs : pyIsSpace c = false := strip_head_not_space hk1 hp1
      have hcne : (' ' : Char) ≠ c := by
        intro he
        rw [← he] at hcs
        simp [pyIsSpace] at hcs
      simp [leadsWith, hcne]
  have hco : (lineOf p).contains ':' = true := by
    apply List.elem_iff.mpr
    rw [lineOf_shape]
    exact List.mem_append.mpr (Or.inr (List.mem_cons_self _ _))
  have hnl : '\n' ∉ lineOf p := by
    rw [lineOf_shape]
    intro hm
    rcases List.mem_append.mp hm with h1 | h1
    · exact hk3 h1
    · rcases List.mem_cons.mp h1 with h2 | h2
      · cases h2
      · rcases List.mem_cons.mp h2 with h3 | h3
        · cases h3
        · exact hv2 h3
  refine ⟨?_, hnl, hkeyv, hvalv⟩
  simp [isScalarLine, isKeyLine, hlw, hvalv]
  exact ⟨⟨List.elem_iff.mp hco, hv3⟩, hv4⟩

theorem foldl_congr_mem {α β : Type} (f g : β → α → β) :
    ∀ (l : List α) (b : β), (∀ x a, a ∈ l → f x a = g x a) →
      l.foldl f b = l.foldl g b := by
  intro l
  induction l with
  | nil => intro b _; rfl
  | cons a t ih =>
    intro b h
    rw [List.foldl_cons, List.foldl_cons, h b a (List.mem_cons_self _ _)]
    exact ih _ (fun x a' ha' => h x a' (List.mem_cons_of_mem _ ha'))

/-! ## Lemmas about the orchestration loops -/

theorem foldl_eq_foldl_filter {α β : Type} (p : α → Bool) (f : β → α → β)
    (hf : ∀ b a, p a = false → f b a = b) :
    ∀ (l : List α) (b : β), l.foldl f b = (l.filter p).foldl f b := by
  intro l
  induction l with
  | nil => intro b; rfl
  | cons e t ih =>
    intro b
    cases hp : p e with
    | true => simp [List.filter_cons, hp, ih]
    | false => simp [List.filter_cons, hp, hf b e hp, ih]

theorem skillPass_files (es : List FileEntry) :
    (skillPass es).1
      = (es.filter (fun e => matchesPat .skillName (baseName e.relPath))).length := by
  have go : ∀ (l : List FileEntry) (acc : Nat × Nat),
      (l.foldl
        (fun acc e =>
          if matchesPat .skillName (baseName e.relPath) then
            (acc.1 + 1, acc.2 + (validateSkillMd e.content).length)
          else acc) acc).1
        = acc.1 + (l.filter (fun e => matchesPat .skillName (baseName e.relPath))).length := by
    intro l
    induction l with
    | nil => intro acc; simp
    | cons e t ih =>
      intro acc
      cases hp : matchesPat .skillName (baseName e.relPath) with
      | true =>
        simp only [List.foldl_cons, List.filter_cons, hp, if_true, List.length_cons, ih]
        omega
      | false => simp [List.filter_cons, hp, ih]
  simpa [skillPass] using go es (0, 0)

/-! ## Lemmas about the link scanner -/

theorem count_filterMap {α β : Type} [BEq β] [LawfulBEq β]
    (f : α → Option β) (b : β) :
    ∀ l : List α, (l.filterMap f).count b = l.countP (fun a => f a == some b) := by
  intro l
  induction l with
  | nil => rfl
  | cons a t ih =>
    cases hf : f a with
    | none => simp [List.filterMap_cons, hf, List.countP_cons, ih]
    | some c =>
      by_cases hc : c = b
      · subst hc
        simp [List.filterMap_cons, hf, List.count_cons, List.countP_cons, ih]
      · simp [List.filterMap_cons, hf, List.count_cons, List.countP_cons, ih, hc]

theorem countP_congr_mem {α : Type} (p q : α → Bool) :
    ∀ l : List α, (∀ a ∈ l, p a = q a) → l.countP p = l.countP q := by
  intro l
  induction l with
  | nil => intro _; rfl
  | cons a t ih =>
    intro h
    have ht := ih (fun x hx => h x (List.mem_cons_of_mem a hx))
    simp [List.countP_cons, ht, h a (List.mem_cons_self a t)]

theorem matchLinkAt_no_rbracket {l t u r : Str}
    (h : matchLinkAt l = some ((t, u), r)) : ']' ∉ t := by
  cases l with
  | nil => simp [matchLinkAt] at h
  | cons c rest =>
    rw [matchLinkAt] at h
    split at h
    · split at h
      next t0 ts r2 ht hr =>
        split at h
        next u0 us r4 hu hr2 =>
          cases h
          intro hm
          rw [← ht] at hm
          have := List.mem_takeWhile_imp hm
          simp at this
        next => cases h
      next => cases h
    · cases h

theorem findLinksF_no_rbracket :
    ∀ (fuel : Nat) (l : Str), ∀ p ∈ findLinksF fuel l, ']' ∉ p.1 := by
  intro fuel
  induction fuel with
  | zero => intro l p hp; simp [findLinksF] at hp
  | succ n ih =>
    intro l p hp
    cases l with
    | nil => simp [findLinksF] at hp
    | cons c t =>
      rw [findLinksF] at hp
      cases hm : matchLinkAt (c :: t) with
      | some gr =>
        obtain ⟨g, r⟩ := gr
        rw [hm] at hp
        rcases List.mem_cons.mp hp with h | h
        · subst h
          obtain ⟨t1, u1⟩ := p
          exact matchLinkAt_no_rbracket hm
        · exact ih r p h
      | none =>
        rw [hm] at hp
        exact ih t p hp

theorem findLinks_no_rbracket (l : Str) : ∀ p ∈ findLinks l, ']' ∉ p.1 :=
  findLinksF_no_rbracket l.length l

theorem append_sep_inj {t t' r r' : Str} (h : ']' ∉ t) (h' : ']' ∉ t')
    (he : t ++ ']' :: r = t' ++ ']' :: r') : t = t' ∧ r = r' := by
  induction t generalizing t' with
  | nil =>
    cases t' with
    | nil => simp_all
    | cons c cs =>
      simp only [List.nil_append, List.cons_append, List.cons.injEq] at he
      exact absurd he.1 (by simp at h'; exact h'.1)
  | cons c cs ih =>
    cases t' with
    | nil =>
      simp only [List.nil_append, List.cons_append, List.cons.injEq] at he
      exact absurd he.1.symm (by simp at h; exact h.1)
    | cons c' cs' =>
      simp only [List.cons_append, List.cons.injEq] at he
      have h1 : ']' ∉ cs := fun hx => h (List.mem_cons_of_mem _ hx)
      have h2 : ']' ∉ cs' := fun hx => h' (List.mem_cons_of_mem _ hx)
      obtain ⟨hcs, hr⟩ := ih h1 h2 he.2
      exact ⟨by rw [he.1, hcs], hr⟩

theorem brokenMsg_inj {t u t' u' : Str} (h : ']' ∉ t) (h' : ']' ∉ t')
    (he : brokenMsg t u = brokenMsg t' u') : t = t' ∧ u = u' := by
  have hshape : ∀ a b : Str,
      brokenMsg a b = s "Broken link: [" ++ (a ++ ']' :: '(' :: (b ++ [')'])) := by
    intro a b
    show s "Broken link: [" ++ a ++ s "](" ++ b ++ s ")" = _
    simp [List.append_assoc]
    rfl
  rw [hshape, hshape] at he
  have he2 := List.append_cancel_left he
  obtain ⟨ht, hr⟩ := append_sep_inj h h' he2
  refine ⟨ht, ?_⟩
  simp only [List.cons.injEq, true_and] at hr
  have : u ++ [')'] = u' ++ [')'] := hr
  have hlen : u.length = u'.length := by
    have := congrArg List.length this
    simp at this
    exact this
  exact (List.append_inj this hlen).1

theorem checkLink_eq_some {fileDir repoRoot : Str} {ex : Str → Bool} {p : Str × Str}
    {m : Str} (h : checkLink fileDir repoRoot ex p = some m) :
    m = brokenMsg p.1 p.2 := by
  rw [checkLink] at h
  split at h
  next => cases h
  next target heq =>
    split at h
    · cases h
    · injection h with h1
      exact h1.symm

/-! ## The claims -/

/-- **C1**: for every run on an existing target, the process exits with a
failure status (1) if and only if the aggregated error count is positive,
and a run with zero errors — whatever its warning count — exits with 0. -/
theorem exit_iff_errors (t : RunTarget) :
    (mainExitCode t = 1 ↔ 0 < (runCounts t).errors) ∧
      ((runCounts t).errors = 0 → mainExitCode t = 0) := by
  unfold mainExitCode
  by_cases h : (runCounts t).errors > 0 <;> simp [h] <;> omega

/-- Instance of `exit_iff_errors`: a clean single-file run exits with 0. -/
theorem exit_iff_errors_instance :
    mainExitCode (RunTarget.file (fun _ => true) (s "notes.txt") (.ok (s "x"))
      (s "/r") (s "/r") (fun _ => false)) = 0 :=
  (exit_iff_errors _).2 (by decide)

/-- **C4** (amended): on a read failure the four schema validators each
report exactly the single `Cannot read file` error and do nothing else,
while the link checker reports zero findings (not one). -/
theorem read_error_findings (e name fileDir repoRoot : Str) (ex : Str → Bool) :
    validateSkillMd (.error e) = [cannotRead e] ∧
      validateRuleMd name (.error e) = [cannotRead e] ∧
      validateAgentMd name (.error e) = [cannotRead e] ∧
      validateCommandMd (.error e) = [cannotRead e] ∧
      validateMarkdownLinks (.error e) name fileDir repoRoot ex = [] :=
  ⟨rfl, rfl, rfl, rfl, rfl⟩

/-- **C4** counterexample: the link integrity checker reports zero findings —
not exactly one error finding — for an unreadable file. -/
theorem link_checker_read_error_cx :
    validateMarkdownLinks (.error (s "Permission denied")) (s "doc.md")
        (s "/repo/docs") (s "/repo") (fun _ => false) = [] ∧
      ¬ (validateMarkdownLinks (.error (s "Permission denied")) (s "doc.md")
          (s "/repo/docs") (s "/repo") (fun _ => false)).length = 1 := by
  exact ⟨rfl, by decide⟩

/-- **C5** counterexample: `find_files` does not sort; on a tree enumerated
as `b.json, a.json` the returned order is not sorted by path. -/
theorem find_files_unsorted_cx :
    pathsSorted ((findFiles unsortedTree GlobPat.jsonExt).map FileEntry.relPath)
      = false := by decide

/-- **C5** (amended): `find_files` returns the matching files in the
filesystem's enumeration order, unsorted; it contains no duplicates whenever
the enumeration has none, and is a function of the tree (deterministic). -/
theorem find_files_nodup (fs : FS) (pat : GlobPat)
    (h : (fs.entries.map FileEntry.relPath).Nodup) :
    ((findFiles fs pat).map FileEntry.relPath).Nodup := by
  have hsub : List.Sublist (findFiles fs pat) fs.entries := List.filter_sublist _
  exact h.sublist (hsub.map _)

/-- Instance of `find_files_nodup` on a concrete two-file tree. -/
theorem find_files_nodup_instance :
    ((findFiles ⟨s "/r", [⟨s "a.json", .ok []⟩, ⟨s "b.md", .ok []⟩], []⟩
        GlobPat.jsonExt).map FileEntry.relPath).Nodup :=
  find_files_nodup _ _ (by decide)

/-- **C6** counterexample: a `SKILL.md` below `node_modules` *is* dispatched
to the skill validator — the directory run checks it (1 file) and records its
error. -/
theorem skill_pass_no_exclusion_cx :
    validateDirectory (fun _ => true) nodeModulesTree = ⟨1, 1, 0⟩ := by decide

/-- **C6** (amended): only the JSON and link loops skip paths containing
`node_modules` or `.git`; the SKILL.md loop applies no exclusion and counts
every discovered `SKILL.md`. -/
theorem discovery_exclusion_amended (ok : Str → Bool) (root : Str) (ex : Str → Bool)
    (es : List FileEntry) :
    jsonPass ok root es
        = jsonPass ok root (es.filter (fun e => !isExcluded (root ++ s "/" ++ e.relPath))) ∧
      linkPass root ex es
        = linkPass root ex (es.filter (fun e => !isExcluded (root ++ s "/" ++ e.relPath))) ∧
      (skillPass es).1
        = (es.filter (fun e => matchesPat .skillName (baseName e.relPath))).length := by
  refine ⟨?_, ?_, skillPass_files es⟩
  · unfold jsonPass
    apply foldl_eq_foldl_filter
    intro b a h
    have hx : isExcluded (root ++ (s "/" ++ a.relPath)) = true := by
      rw [← List.append_assoc]
      simpa using h
    by_cases hm : matchesPat .jsonExt (baseName a.relPath) <;> simp [hm, hx]
  · unfold linkPass
    apply foldl_eq_foldl_filter
    intro b a h
    have hx : isExcluded (root ++ (s "/" ++ a.relPath)) = true := by
      rw [← List.append_assoc]
      simpa using h
    by_cases hm : matchesPat .mdExt (baseName a.relPath) <;> simp [hm, hx]

/-- **C2** counterexample: on a skill file whose closing delimiter has a
trailing space, frontmatter extraction and parsing succeed and the body after
the delimiter ("hi", trimmed) is far shorter than 100 characters, yet the
skill validator produces no finding at all — the body check is silently
skipped because `content.find('\n---\n', 3)` misses the delimiter the
extractor matched. -/
theorem skill_body_check_skipped_cx :
    validateYamlFrontmatter laxDelimSkill
        = .ok [(s "name", s "my-skill"), (s "description", s "ok")] ∧
      strip (fmSpecBody laxDelimSkill) = s "hi" ∧
      (strip (fmSpecBody laxDelimSkill)).length < 100 ∧
      validateSkillMd (.ok laxDelimSkill) = [] :=
  ⟨rfl, by decide, by decide, rfl⟩

/-- **C2** (amended): when frontmatter parsing succeeds *and* the content has
an exact `\n---\n` occurrence after index 3, a trimmed body shorter than 100
characters after that occurrence yields the body-too-short error; when there
is no exact occurrence (e.g. the closing delimiter carries trailing
whitespace) the body check is skipped and contributes nothing. -/
theorem skill_body_check_amended (content : Str) (d : Mapping)
    (hfm : validateYamlFrontmatter content = .ok d) :
    (∀ j, findSub (s "\n---\n") (content.drop 3) = some j →
        (strip (content.drop (j + 8))).length < 100 →
        s "SKILL.md body seems too short (< 100 chars)" ∈ validateSkillMd (.ok content)) ∧
      (findSub (s "\n---\n") (content.drop 3) = none →
        validateSkillMd (.ok content) = skillNameErrs d ++ skillDescErrs d) := by
  have hv : validateSkillMd (.ok content)
      = skillNameErrs d ++ skillDescErrs d
        ++ bodyErrs content (s "SKILL.md body seems too short (< 100 chars)") := by
    simp [validateSkillMd, hfm]
  constructor
  · intro j hj hshort
    have hb : bodyErrs content (s "SKILL.md body seems too short (< 100 chars)")
        = [s "SKILL.md body seems too short (< 100 chars)"] := by
      simp [bodyErrs, hj, hshort]
    rw [hv, hb]
    simp
  · intro hn
    have hb : bodyErrs content (s "SKILL.md body seems too short (< 100 chars)")
        = [] := by
      simp [bodyErrs, hn]
    rw [hv, hb, List.append_nil]

/-- Instance of `skill_body_check_amended`: with an exact closing delimiter
the short body is reported. -/
theorem skill_body_check_amended_instance :
    s "SKILL.md body seems too short (< 100 chars)"
      ∈ validateSkillMd (.ok exactDelimSkill) :=
  (skill_body_check_amended exactDelimSkill
      [(s "name", s "my-skill"), (s "description", s "ok")] rfl).1
    31 (by decide) (by decide)

/-- **C3** counterexample: in block-scalar mode, the line `foo` — which does
not start with a space and is not blank — is nevertheless appended to the
accumulating value, because it is not a key line (it has no colon). -/
theorem yaml_block_mode_cx :
    yamlParse (s "k: |\nfoo") = [(s "k", s "foo")] ∧
      leadsWith (s " ") (s "foo") = false ∧
      (strip (s "foo")).isEmpty = false ∧
      isKeyLine (s "foo") = false := by decide

/-- **C3** (amended): in block-scalar mode a following line is appended
(stripped of surrounding whitespace; blanks contribute an empty line) if and
only if it is *not* a key line — i.e. iff it is blank, starts with a space,
or contains no colon; block-scalar mode for the key ends at a new key line,
at which point the accumulated value is flushed into the mapping. -/
theorem yaml_block_mode_amended (st : YState) (line : Str)
    (h1 : st.inMultiline = true) (h2 : keyTruthy st.currentKey = true) :
    (isKeyLine line = false →
        yamlStep st line = { st with currentValue := st.currentValue ++ [strip line] }) ∧
      (isKeyLine line = true → yamlStep st line = keyLineStep (yFlush st) line) ∧
      ∀ k, st.currentKey = some k →
        (yFlush st).data = dictInsert st.data k (strip (joinNL st.currentValue)) := by
  refine ⟨?_, ?_, ?_⟩
  · intro hk
    by_cases he : (strip line).isEmpty = true
    · have hnil : strip line = [] := by
        cases hsl : strip line with
        | nil => rfl
        | cons c t => rw [hsl] at he; exact absurd he (by simp)
      simp [yamlStep, he, h1, hnil]
    · simp [yamlStep, he, hk, h1, h2]
  · intro hk
    have hco : line.contains ':' = true := by
      have h' := hk
      simp only [isKeyLine, Bool.and_eq_true] at h'
      exact h'.2
    have hne : (strip line).isEmpty = false := strip_not_empty_of_colon hco
    simp [yamlStep, hne, hk]
  · intro k hkk
    rw [hkk] at h2
    simp [yFlush, h1, h2, hkk]

/-- Instance of `yaml_block_mode_amended`: the unindented colon-free line
`foo` is appended stripped. -/
theorem yaml_block_mode_amended_instance :
    yamlStep ⟨[], some (s "k"), [s "A"], true⟩ (s "foo")
      = ⟨[], some (s "k"), [s "A", s "foo"], true⟩ := by
  have h := (yaml_block_mode_amended ⟨[], some (s "k"), [s "A"], true⟩ (s "foo")
      rfl (by decide)).1 (by decide)
  rw [h]
  decide

/-- **C7**: a Markdown document (not named TEMPLATE/SPEC) whose extracted
links — taken outside fenced code blocks — contain `[Guide](./missing.md)`
exactly once, where `missing.md` does not exist in the file's directory,
produces exactly one warning finding for that link; and in a directory run
link findings feed only the warning counter: the error total has no link
contribution, so the exit code (a function of the error total alone) is
unchanged by them. -/
theorem broken_link_single_warning
    (content fileName fileDir repoRoot : Str) (ex : Str → Bool)
    (hT : containsSub fileName (s "TEMPLATE") = false)
    (hS : containsSub fileName (s "SPEC") = false)
    (hcount : (findLinks (stripFences content)).count (s "Guide", s "./missing.md") = 1)
    (hex : ex (pathJoin fileDir (s "missing.md")) = false) :
    (validateMarkdownLinks (.ok content) fileName fileDir repoRoot ex).count
        (brokenMsg (s "Guide") (s "./missing.md")) = 1 ∧
      ∀ (ok : Str → Bool) (fs : FS),
        (validateDirectory ok fs).errors
            = (jsonPass ok fs.root fs.entries).2 + (skillPass fs.entries).2
              + (rulePass fs).2 + (agentPass fs).2 + (commandPass fs).2 ∧
          (validateDirectory ok fs).warnings
            = linkPass fs.root (pathExists fs) fs.entries := by
  refine ⟨?_, fun ok fs => ⟨rfl, rfl⟩⟩
  have hvml : validateMarkdownLinks (.ok content) fileName fileDir repoRoot ex
      = (findLinks (stripFences content)).filterMap (checkLink fileDir repoRoot ex) := by
    simp [validateMarkdownLinks, hT, hS]
  rw [hvml, count_filterMap]
  have hguide : checkLink fileDir repoRoot ex (s "Guide", s "./missing.md")
      = some (brokenMsg (s "Guide") (s "./missing.md")) := by
    have hc : checkLink fileDir repoRoot ex (s "Guide", s "./missing.md")
        = if ex (pathJoin fileDir (s "missing.md")) then none
          else some (brokenMsg (s "Guide") (s "./missing.md")) := rfl
    rw [hc]
    simp [hex]
  have hcongr : ∀ p ∈ findLinks (stripFences content),
      (checkLink fileDir repoRoot ex p
          == some (brokenMsg (s "Guide") (s "./missing.md")))
        = (p == (s "Guide", s "./missing.md")) := by
    intro p hp
    by_cases hpg : p = (s "Guide", s "./missing.md")
    · subst hpg
      simp [hguide]
    · have hR : (p == ((s "Guide", s "./missing.md") : Str × Str)) = false := by
        simp [hpg]
      rw [hR]
      cases hc : checkLink fileDir repoRoot ex p with
      | none => simp
      | some m =>
        have hm := checkLink_eq_some hc
        by_cases hmg : m = brokenMsg (s "Guide") (s "./missing.md")
        · exfalso
          have hm' : brokenMsg (s "Guide") (s "./missing.md") = brokenMsg p.1 p.2 :=
            hmg.symm.trans hm
          have hnb : ']' ∉ p.1 := findLinks_no_rbracket _ p hp
          have hgb : (']' : Char) ∉ s "Guide" := by decide
          obtain ⟨h1, h2⟩ := brokenMsg_inj hgb hnb hm'
          exact hpg (Prod.ext h1.symm h2.symm)
        · simp [hmg]
  rw [countP_congr_mem _ _ _ hcongr]
  exact hcount

/-- Instance of `broken_link_single_warning` on a concrete document with one
broken link. -/
theorem broken_link_single_warning_instance :
    (validateMarkdownLinks (.ok (s "# Doc\n\nSee [Guide](./missing.md).\n"))
        (s "doc.md") (s "/repo/docs") (s "/repo") (fun _ => false)).count
      (brokenMsg (s "Guide") (s "./missing.md")) = 1 :=
  (broken_link_single_warning (s "# Doc\n\nSee [Guide](./missing.md).\n")
      (s "doc.md") (s "/repo/docs") (s "/repo") (fun _ => false)
      (by decide) (by decide) (by decide) rfl).1

/-- **C8**: the JSON checker's line-splitting-and-rejoining step is the
identity, so its verdict on readable content is exactly the parser's verdict
on the raw content. -/
theorem json_cleaning_identity (content : Str) :
    cleanedContent content = content ∧
      ∀ jsonOk : Str → Bool, (validateJson jsonOk (.ok content)).1 = jsonOk content := by
  refine ⟨cleanedContent_id content, fun jsonOk => ?_⟩
  simp only [validateJson, cleanedContent_id]
  cases h : jsonOk content <;> simp [h]

/-- **C9**: for a frontmatter block consisting only of single-line scalar
`key: value` lines, serializing the parsed mapping back into `key: value`
lines and parsing again yields the same mapping. -/
theorem frontmatter_roundtrip (block : Str)
    (h : ∀ l ∈ splitNL block, isScalarLine l = true) :
    yamlParse (serializeMapping (yamlParse block)) = yamlParse block := by
  have hlines : ∀ l ∈ splitNL block, isScalarLine l = true ∧ '\n' ∉ l :=
    fun l hl => ⟨h l hl, splitNL_no_nl block l hl⟩
  have hparse := yamlParse_scalar h
  have hinv := scalarFold_invariant (splitNL block) [] hlines (by simp) (by simp)
  rw [← hparse] at hinv
  obtain ⟨hclean, hnodup⟩ := hinv
  have hne : yamlParse block ≠ [] := by
    rw [hparse]
    cases hsp : splitNL block with
    | nil => exact absurd hsp (splitNL_ne_nil block)
    | cons l r =>
      rw [List.foldl_cons]
      exact scalarFold_ne_nil r _ dictInsert_ne_nil
  have hserial : splitNL (serializeMapping (yamlParse block))
      = (yamlParse block).map lineOf := by
    unfold serializeMapping
    apply split_join_lines
    · simp [hne]
    · intro x hx
      obtain ⟨p, hp, hpx⟩ := List.mem_map.mp hx
      rw [← hpx]
      exact (lineOf_scalar (hclean p hp)).2.1
  have hserialScalar :
      ∀ l ∈ splitNL (serializeMapping (yamlParse block)), isScalarLine l = true := by
    rw [hserial]
    intro l hl
    obtain ⟨p, hp, hpl⟩ := List.mem_map.mp hl
    rw [← hpl]
    exact (lineOf_scalar (hclean p hp)).1
  rw [yamlParse_scalar hserialScalar, hserial, List.foldl_map]
  rw [foldl_congr_mem _ (fun acc p => dictInsert acc p.1 p.2) (yamlParse block) []
    (fun x p hp => by
      rw [(lineOf_scalar (hclean p hp)).2.2.1, (lineOf_scalar (hclean p hp)).2.2.2])]
  exact foldl_dictInsert_self (yamlParse block) [] (by simpa using hnodup)

/-- Instance of `frontmatter_roundtrip` on a concrete two-field block. -/
theorem frontmatter_roundtrip_instance :
    yamlParse (serializeMapping (yamlParse (s "name: my-skill\ndescription: does a thing")))
      = yamlParse (s "name: my-skill\ndescription: does a thing") :=
  frontmatter_roundtrip (s "name: my-skill\ndescription: does a thing") (by decide)

/-- **C10**: in single-file mode a file named `SKILL.md` is dispatched to the
skill validator only; the run reports the skill errors and zero warnings, so
link checking never happens for it. -/
theorem single_file_skill_dispatch (jsonOk : Str → Bool) (content : Except Str Str)
    (fileDir repoRoot : Str) (ex : Str → Bool) :
    validateFile jsonOk (s "SKILL.md") content fileDir repoRoot ex
        = ((validateSkillMd content).length, 0) ∧
      runCounts (RunTarget.file jsonOk (s "SKILL.md") content fileDir repoRoot ex)
        = ⟨1, (validateSkillMd content).length, 0⟩ := by
  constructor <;> rfl

end Validate
